import Mathlib

/-!
Verification of the detection-consolidation, dead-reckoning prediction and
proximity logic of the `Enhancing-Human-Safety-Using-Computer-Vision`
repository (files `utilsNeeded.py` and `Thesis/deadReckoning_pred.py`),
as a shallow embedding in Lean 4.

Conventions of the embedding:
* Python numbers (pixel coordinates, confidences, timestamps) are modelled
  as rationals `ℚ`; Python `int(...)` is truncation toward zero (`truncQ`).
* The in-place `list.sort` inside `consolidate_detections` is modelled by
  explicit state passing: the function returns the post-call state of the
  caller's list together with the result.
* The mutable `last_positions` dictionary of `DeadReckoningTracker` is
  modelled as a function `ℤ → Option (ℤ × ℤ × ℚ)` threaded through
  `apply_dead_reckoning`.
* The comparison `distance <= threshold` of `check_proximity_simple`, where
  `distance = (dx**2 + dy**2) ** 0.5`, is embedded without the (irrational)
  square root as the equivalent `0 ≤ threshold ∧ dx^2 + dy^2 ≤ threshold^2`
  (a square root of a nonnegative number is `≤ t` iff `t ≥ 0` and the
  radicand is `≤ t^2`).
-/

namespace SafetyVision

/-- Python `int(q)`: truncation toward zero. For `q = num/den` in lowest
terms with `den > 0`, this is the truncated division `num.tdiv den`. -/
def truncQ (q : ℚ) : ℤ := q.num.tdiv q.den

theorem truncQ_intCast (n : ℤ) : truncQ (n : ℚ) = n := by
  simp [truncQ, Rat.num_intCast, Rat.den_intCast, Int.tdiv_one]

/-- An axis-aligned bounding box `(x1, y1, x2, y2)`. -/
structure Box where
  x1 : ℚ
  y1 : ℚ
  x2 : ℚ
  y2 : ℚ
deriving DecidableEq, Repr

/-- One detection `[x1, y1, x2, y2, confidence, class_id, class_name]`. -/
structure Detection where
  box : Box
  conf : ℚ
  clsId : ℤ
  clsName : String
deriving DecidableEq, Repr

/-! ## Dead-reckoning predictor (`Thesis/deadReckoning_pred.py`) -/

/-- The mutable state of `DeadReckoningTracker` used by
`apply_dead_reckoning`: the `last_positions` dictionary, keyed by class id,
holding `(last_x, last_y, last_timestamp)`. -/
structure DRState where
  last_positions : ℤ → Option (ℤ × ℤ × ℚ)

/-- The empty `last_positions` dictionary (tracker just constructed). -/
def DRState.init : DRState := ⟨fun _ => none⟩

/-- `DeadReckoningTracker.apply_dead_reckoning(det, timestamp)`:
returns `(current_x, current_y, future_x, future_y)` and the updated
tracker state. -/
def apply_dead_reckoning (st : DRState) (det : Detection) (timestamp : ℚ) :
    (ℤ × ℤ × ℤ × ℤ) × DRState :=
  let current_x : ℤ := truncQ ((det.box.x1 + det.box.x2) / 2)
  let current_y : ℤ := truncQ ((det.box.y1 + det.box.y2) / 2)
  let last_info : ℤ × ℤ × ℚ :=
    (st.last_positions det.clsId).getD (current_x, current_y, timestamp)
  let time_delta : ℚ := timestamp - last_info.2.2
  let velocity_x : ℚ :=
    if 0 < time_delta then ((current_x : ℚ) - (last_info.1 : ℚ)) / time_delta else 0
  let velocity_y : ℚ :=
    if 0 < time_delta then ((current_y : ℚ) - (last_info.2.1 : ℚ)) / time_delta else 0
  let future_x : ℤ := truncQ ((current_x : ℚ) + velocity_x * time_delta)
  let future_y : ℤ := truncQ ((current_y : ℚ) + velocity_y * time_delta)
  ((current_x, current_y, future_x, future_y),
   ⟨fun k => if k = det.clsId then some (current_x, current_y, timestamp)
             else st.last_positions k⟩)

/-- The detection of the C1 scenario's first frame: box `(100,100)-(120,120)`,
class 5. -/
def detC1a : Detection := ⟨⟨100, 100, 120, 120⟩, 9/10, 5, "obj"⟩

/-- The detection of the C1 scenario's second frame: box `(110,100)-(130,120)`,
class 5, one second later. -/
def detC1b : Detection := ⟨⟨110, 100, 130, 120⟩, 9/10, 5, "obj"⟩

/-- The tracker state after the first C1 sighting at timestamp 0. -/
def stC1 : DRState := (apply_dead_reckoning DRState.init detC1a 0).2

/-- C1 counterexample: in the two-frame scenario (class-5 box
`(100,100)-(120,120)` at t=0, then `(110,100)-(130,120)` at t=1), the second
call of `apply_dead_reckoning` returns current center `(120,110)` but future
center `(130,110)`, not `(130,120)` as the claim states. -/
theorem c1_claim_false :
    ((apply_dead_reckoning stC1 detC1b 1).1.1,
     (apply_dead_reckoning stC1 detC1b 1).1.2.1) = (120, 110) ∧
    ¬ ((apply_dead_reckoning stC1 detC1b 1).1.2.2.1,
       (apply_dead_reckoning stC1 detC1b 1).1.2.2.2) = (130, 120) := by
  with_unfolding_all decide

/-- C1 (amended): in the two-frame scenario of the claim, the second call of
`apply_dead_reckoning` returns current center `(120,110)` and predicted
future center `(130,110)` (drift `(10,0)` per second applied to the current
center `(120,110)`). -/
theorem c1_dead_reckoning_second_call :
    (apply_dead_reckoning stC1 detC1b 1).1 = (120, 110, 130, 110) := by
  with_unfolding_all decide

/-- C4: on the first call of `apply_dead_reckoning` for a key (no prior
entry in `last_positions`), the returned future position equals the returned
current position. -/
theorem c4_first_call_future_eq_current (st : DRState) (det : Detection)
    (ts : ℚ) (h : st.last_positions det.clsId = none) :
    (apply_dead_reckoning st det ts).1.2.2.1 = (apply_dead_reckoning st det ts).1.1 ∧
    (apply_dead_reckoning st det ts).1.2.2.2 = (apply_dead_reckoning st det ts).1.2.1 := by
  simp only [apply_dead_reckoning, h, Option.getD_none]
  norm_num [truncQ_intCast]

/-- C4 witness: the first-call property at a concrete detection and empty
tracker state. -/
theorem c4_first_call_witness :
    DRState.init.last_positions detC1a.clsId = none ∧
    (apply_dead_reckoning DRState.init detC1a 0).1.2.2.1 =
      (apply_dead_reckoning DRState.init detC1a 0).1.1 ∧
    (apply_dead_reckoning DRState.init detC1a 0).1.2.2.2 =
      (apply_dead_reckoning DRState.init detC1a 0).1.2.1 :=
  ⟨rfl, c4_first_call_future_eq_current DRState.init detC1a 0 rfl⟩

/-! ## Geometry and proximity predicates (`utilsNeeded.py`) -/

/-- The center point of a box (midpoints of its sides). -/
def center (b : Box) : ℚ × ℚ := ((b.x1 + b.x2) / 2, (b.y1 + b.y2) / 2)

/-- Squared Euclidean distance between two points. -/
def sqDist (p q : ℚ × ℚ) : ℚ := (q.1 - p.1) ^ 2 + (q.2 - p.2) ^ 2

/-- `check_proximity_simple(target, specific_object_detections,
proximity_threshold)`: true iff some pair of a target detection and an object
detection has center distance `≤ proximity_threshold`. The source compares
`((dx**2 + dy**2) ** 0.5) <= threshold`; since the square root of the
nonnegative radicand is `≤ t` iff `0 ≤ t ∧ radicand ≤ t^2`, the comparison is
embedded in that square-root-free form. -/
def check_proximity_simple (target specific_object_detections : List Detection)
    (proximity_threshold : ℚ) : Bool :=
  target.any fun t =>
    specific_object_detections.any fun o =>
      decide (0 ≤ proximity_threshold ∧
        sqDist (center t.box) (center o.box) ≤ proximity_threshold ^ 2)

/-- `check_nearness(target, specific_object_detections)`: true iff some pair
is near along one axis — a gap of at most 10 pixels on the left, right, top
or bottom side of the target box. -/
def check_nearness (target specific_object_detections : List Detection) : Bool :=
  target.any fun t =>
    specific_object_detections.any fun o =>
      decide (o.box.x2 < t.box.x1 ∧ t.box.x1 - o.box.x2 ≤ 10) ||
      decide (t.box.x2 < o.box.x1 ∧ o.box.x1 - t.box.x2 ≤ 10) ||
      decide (o.box.y2 < t.box.y1 ∧ t.box.y1 - o.box.y2 ≤ 10) ||
      decide (t.box.y2 < o.box.y1 ∧ o.box.y1 - t.box.y2 ≤ 10)

/-! ## Detection consolidation (`consolidate_detections` in `utilsNeeded.py`) -/

/-- Intersection area of two boxes as computed in the merge loop:
`max(0, inter_x2 - inter_x1) * max(0, inter_y2 - inter_y1)`. -/
def interArea (a b : Box) : ℚ :=
  max 0 (min a.x2 b.x2 - max a.x1 b.x1) * max 0 (min a.y2 b.y2 - max a.y1 b.y1)

/-- Signed area `(x2 - x1) * (y2 - y1)` of a box. -/
def boxArea (a : Box) : ℚ := (a.x2 - a.x1) * (a.y2 - a.y1)

/-- Union area `area1 + area2 - inter_area`. -/
def unionArea (a b : Box) : ℚ := boxArea a + boxArea b - interArea a b

/-- `iou = inter_area / union_area if union_area > 0 else 0`. -/
def iouQ (a b : Box) : ℚ :=
  if 0 < unionArea a b then interArea a b / unionArea a b else 0

/-- Bounding union of two boxes: min of top-lefts, max of bottom-rights. -/
def mergeBox (a b : Box) : Box :=
  ⟨min a.x1 b.x1, min a.y1 b.y1, max a.x2 b.x2, max a.y2 b.y2⟩

/-- One step of the Python stable insertion used to model
`detections.sort(key=lambda x: x[4], reverse=True)`: insert `d` before the
first element of strictly smaller confidence (elements of equal confidence
keep their original relative order, `d` being the earlier one). -/
def insertDesc (d : Detection) : List Detection → List Detection
  | [] => [d]
  | e :: es => if e.conf ≤ d.conf then d :: e :: es else e :: insertDesc d es

/-- The stable sort by confidence descending performed in place by
`detections.sort(key=lambda x: x[4], reverse=True)`. -/
def sortDesc (l : List Detection) : List Detection := l.foldr insertDesc []

/-- The inner `for j` loop of `consolidate_detections`: scan the not-yet-used
detections after the seed, merging each one whose IoU with the running
accumulator box is `≥ iou_threshold` (growing the box to the bounding union
and the confidence to the max), and return the final accumulator box,
confidence, and the detections left unused, in order. -/
def mergeScan (thr : ℚ) (acc : Box) (conf : ℚ) :
    List Detection → Box × ℚ × List Detection
  | [] => (acc, conf, [])
  | d :: ds =>
    if thr ≤ iouQ acc d.box then
      mergeScan thr (mergeBox acc d.box) (max conf d.conf) ds
    else
      let r := mergeScan thr acc conf ds
      (r.1, r.2.1, d :: r.2.2)

theorem mergeScan_rest_sublist (thr : ℚ) (acc : Box) (conf : ℚ)
    (l : List Detection) : (mergeScan thr acc conf l).2.2.Sublist l := by
  induction l generalizing acc conf with
  | nil => simp [mergeScan]
  | cons d ds ih =>
    rw [mergeScan]
    split
    · exact (ih _ _).trans (List.sublist_cons_self d ds)
    · exact (ih _ _).cons₂ d

theorem mergeScan_rest_length (thr : ℚ) (acc : Box) (conf : ℚ)
    (l : List Detection) : (mergeScan thr acc conf l).2.2.length ≤ l.length :=
  (mergeScan_rest_sublist thr acc conf l).length_le

/-- The outer `for i` loop of `consolidate_detections` on the already-sorted
list: each still-unused detection in turn seeds a merged detection (keeping
the seed's class id and name) built by `mergeScan` over the later unused
detections. -/
def consolidateSorted (thr : ℚ) : List Detection → List Detection
  | [] => []
  | d :: ds =>
    let r := mergeScan thr d.box d.conf ds
    ⟨r.1, r.2.1, d.clsId, d.clsName⟩ :: consolidateSorted thr r.2.2
termination_by l => l.length
decreasing_by
  simp only [List.length_cons, Nat.lt_succ_iff]
  exact mergeScan_rest_length _ _ _ _

/-- `consolidate_detections(detections, iou_threshold)`. The Python function
sorts the caller's list in place before the greedy merge, so the embedding
returns the post-call state of the caller's list together with the returned
consolidated list. -/
def consolidate_detections (detections : List Detection) (iou_threshold : ℚ) :
    List Detection × List Detection :=
  if detections = [] then ([], [])
  else
    let sorted := sortDesc detections
    (sorted, consolidateSorted iou_threshold sorted)

/-- The return value of `consolidate_detections`. -/
def consolidate (detections : List Detection) (iou_threshold : ℚ) :
    List Detection :=
  (consolidate_detections detections iou_threshold).2

theorem consolidateSorted_nil (thr : ℚ) : consolidateSorted thr [] = [] := by
  rw [consolidateSorted.eq_def]

theorem consolidateSorted_cons (thr : ℚ) (d : Detection) (ds : List Detection) :
    consolidateSorted thr (d :: ds) =
      ⟨(mergeScan thr d.box d.conf ds).1, (mergeScan thr d.box d.conf ds).2.1,
        d.clsId, d.clsName⟩ :: consolidateSorted thr (mergeScan thr d.box d.conf ds).2.2 := by
  rw [consolidateSorted.eq_def]

theorem sortDesc_pair (d1 d2 : Detection) :
    sortDesc [d1, d2] = if d2.conf ≤ d1.conf then [d1, d2] else [d2, d1] := by
  simp [sortDesc, insertDesc]

theorem consolidateSorted_pair (thr : ℚ) (a b : Detection) :
    consolidateSorted thr [a, b] =
      if thr ≤ iouQ a.box b.box then
        [⟨mergeBox a.box b.box, max a.conf b.conf, a.clsId, a.clsName⟩]
      else [a, b] := by
  rw [consolidateSorted_cons]
  simp only [mergeScan]
  split
  · simp [consolidateSorted_nil]
  · simp [consolidateSorted_cons, consolidateSorted_nil, mergeScan]

theorem interArea_comm (a b : Box) : interArea a b = interArea b a := by
  simp [interArea, min_comm, max_comm]

theorem iouQ_eq_zero_of_interArea_eq_zero {a b : Box}
    (h : interArea a b = 0) : iouQ a b = 0 := by
  unfold iouQ
  split <;> simp [h]

theorem iouQ_comm (a b : Box) : iouQ a b = iouQ b a := by
  unfold iouQ unionArea
  rw [interArea_comm]
  ring_nf

/-- C3 counterexample: at `iou_threshold = 0`, two completely disjoint boxes
(`(0,0)-(1,1)` and `(2,2)-(3,3)`, intersection area 0) are merged into a
single bounding box rather than returned unmodified, because the merge test
`iou >= iou_threshold` holds with IoU 0. -/
theorem c3_claim_false_at_zero_threshold :
    interArea (⟨⟨0, 0, 1, 1⟩, 9/10, 1, "a"⟩ : Detection).box
        (⟨⟨2, 2, 3, 3⟩, 4/5, 2, "b"⟩ : Detection).box = 0 ∧
    consolidate [⟨⟨0, 0, 1, 1⟩, 9/10, 1, "a"⟩, ⟨⟨2, 2, 3, 3⟩, 4/5, 2, "b"⟩] 0
      ≠ [⟨⟨0, 0, 1, 1⟩, 9/10, 1, "a"⟩, ⟨⟨2, 2, 3, 3⟩, 4/5, 2, "b"⟩] ∧
    (consolidate [⟨⟨0, 0, 1, 1⟩, 9/10, 1, "a"⟩, ⟨⟨2, 2, 3, 3⟩, 4/5, 2, "b"⟩] 0).length
      = 1 := by
  refine ⟨by with_unfolding_all decide, by with_unfolding_all decide,
    by with_unfolding_all decide⟩

/-- C3 (amended): for every strictly positive `iou_threshold` and every pair
of detections whose boxes have intersection area 0 (hence IoU 0),
`consolidate_detections` returns both detections unmodified, in
confidence-descending order. -/
theorem c3_disjoint_boxes_not_merged (thr : ℚ) (d1 d2 : Detection)
    (hthr : 0 < thr) (h : interArea d1.box d2.box = 0) :
    consolidate [d1, d2] thr =
      if d2.conf ≤ d1.conf then [d1, d2] else [d2, d1] := by
  have hne : ([d1, d2] : List Detection) ≠ [] := by simp
  unfold consolidate consolidate_detections
  rw [if_neg hne]
  simp only [sortDesc_pair]
  have h12 : iouQ d1.box d2.box = 0 := iouQ_eq_zero_of_interArea_eq_zero h
  have h21 : iouQ d2.box d1.box = 0 := by rw [iouQ_comm]; exact h12
  split
  · rw [consolidateSorted_pair, if_neg (by rw [h12]; exact not_le.mpr hthr)]
  · rw [consolidateSorted_pair, if_neg (by rw [h21]; exact not_le.mpr hthr)]

/-- C3 witness: two concrete disjoint detections at threshold `1/2` pass
through unmodified. -/
theorem c3_disjoint_boxes_witness :
    (0 : ℚ) < 1/2 ∧
    interArea (⟨⟨0, 0, 1, 1⟩, 9/10, 1, "a"⟩ : Detection).box
        (⟨⟨2, 2, 3, 3⟩, 4/5, 2, "b"⟩ : Detection).box = 0 ∧
    consolidate [⟨⟨0, 0, 1, 1⟩, 9/10, 1, "a"⟩, ⟨⟨2, 2, 3, 3⟩, 4/5, 2, "b"⟩] (1/2)
      = [⟨⟨0, 0, 1, 1⟩, 9/10, 1, "a"⟩, ⟨⟨2, 2, 3, 3⟩, 4/5, 2, "b"⟩] := by
  refine ⟨by with_unfolding_all decide, by with_unfolding_all decide, ?_⟩
  rw [c3_disjoint_boxes_not_merged (1/2) _ _ (by with_unfolding_all decide)
    (by with_unfolding_all decide)]
  with_unfolding_all decide

/-- C5: the merge test of `consolidate_detections` is inclusive at the
threshold: for a pair of detections (higher confidence first), an IoU exactly
equal to `iou_threshold` merges them into the bounding union with the max
confidence, while an IoU strictly below `iou_threshold` leaves both
unmerged. -/
theorem c5_merge_test_inclusive (thr : ℚ) (d1 d2 : Detection)
    (hconf : d2.conf ≤ d1.conf) :
    (iouQ d1.box d2.box = thr →
      consolidate [d1, d2] thr =
        [⟨mergeBox d1.box d2.box, max d1.conf d2.conf, d1.clsId, d1.clsName⟩]) ∧
    (iouQ d1.box d2.box < thr → consolidate [d1, d2] thr = [d1, d2]) := by
  have hne : ([d1, d2] : List Detection) ≠ [] := by simp
  constructor <;> intro hiou <;>
    · unfold consolidate consolidate_detections
      rw [if_neg hne]
      simp only [sortDesc_pair, if_pos hconf]
      rw [consolidateSorted_pair]
      first
        | rw [if_pos (by rw [hiou])]
        | rw [if_neg (not_le.mpr hiou)]

/-- C5 witness: boxes `(0,0)-(10,10)` and `(0,0)-(10,5)` have IoU exactly
`1/2`; at threshold `1/2` they merge into `(0,0)-(10,10)` with the higher
confidence. -/
theorem c5_merge_test_witness :
    iouQ (⟨⟨0, 0, 10, 10⟩, 9/10, 1, "a"⟩ : Detection).box
        (⟨⟨0, 0, 10, 5⟩, 4/5, 2, "b"⟩ : Detection).box = 1/2 ∧
    consolidate [⟨⟨0, 0, 10, 10⟩, 9/10, 1, "a"⟩, ⟨⟨0, 0, 10, 5⟩, 4/5, 2, "b"⟩]
        (1/2) =
      [⟨mergeBox (⟨⟨0, 0, 10, 10⟩, 9/10, 1, "a"⟩ : Detection).box
          (⟨⟨0, 0, 10, 5⟩, 4/5, 2, "b"⟩ : Detection).box,
        max (9/10 : ℚ) (4/5), 1, "a"⟩] :=
  ⟨by with_unfolding_all decide,
   (c5_merge_test_inclusive (1/2) _ _ (by with_unfolding_all decide)).1
     (by with_unfolding_all decide)⟩

/-- C9: `consolidate_detections` sorts the caller's list in place: after a
call on a list whose confidences are not already descending, the caller's
list (first component of the embedded result) is reordered
confidence-descending, hence differs from the original. -/
theorem c9_input_list_sorted_in_place :
    (consolidate_detections
      [⟨⟨0, 0, 1, 1⟩, 1/2, 1, "low"⟩, ⟨⟨5, 5, 6, 6⟩, 3/4, 2, "high"⟩] (1/2)).1
      ≠ [⟨⟨0, 0, 1, 1⟩, 1/2, 1, "low"⟩, ⟨⟨5, 5, 6, 6⟩, 3/4, 2, "high"⟩] ∧
    (consolidate_detections
      [⟨⟨0, 0, 1, 1⟩, 1/2, 1, "low"⟩, ⟨⟨5, 5, 6, 6⟩, 3/4, 2, "high"⟩] (1/2)).1
      = [⟨⟨5, 5, 6, 6⟩, 3/4, 2, "high"⟩, ⟨⟨0, 0, 1, 1⟩, 1/2, 1, "low"⟩] := by
  refine ⟨by with_unfolding_all decide, by with_unfolding_all decide⟩

theorem sqDist_comm (p q : ℚ × ℚ) : sqDist p q = sqDist q p := by
  simp only [sqDist]
  ring

/-- C6: if the center-to-center distance of a target box and an object box is
exactly the proximity threshold (i.e. the squared distance is the squared
threshold, with a nonnegative threshold), `check_proximity_simple` returns
true; and the result is symmetric in the two detections, since it depends
only on the (symmetric) center distance. -/
theorem c6_proximity_boundary_inclusive (t o : Detection) (thr : ℚ)
    (h0 : 0 ≤ thr) (h : sqDist (center t.box) (center o.box) = thr ^ 2) :
    check_proximity_simple [t] [o] thr = true ∧
    check_proximity_simple [o] [t] thr = check_proximity_simple [t] [o] thr := by
  constructor
  · simp [check_proximity_simple, h0, h]
  · simp only [check_proximity_simple, List.any_cons, List.any_nil]
    rw [sqDist_comm]

/-- C6 witness: centers `(1,1)` and `(4,5)` are at distance exactly 5; the
proximity check with threshold 5 fires, symmetrically. -/
theorem c6_proximity_witness :
    sqDist (center (⟨⟨0, 0, 2, 2⟩, 1/2, 1, "t"⟩ : Detection).box)
        (center (⟨⟨3, 4, 5, 6⟩, 1/2, 2, "o"⟩ : Detection).box) = 5 ^ 2 ∧
    check_proximity_simple [⟨⟨0, 0, 2, 2⟩, 1/2, 1, "t"⟩]
      [⟨⟨3, 4, 5, 6⟩, 1/2, 2, "o"⟩] 5 = true :=
  ⟨by with_unfolding_all decide,
   (c6_proximity_boundary_inclusive _ _ 5 (by with_unfolding_all decide)
     (by with_unfolding_all decide)).1⟩

/-- A fixed target box `(0,0)-(10,10)` for the C10 family. -/
def tC10 : Detection := ⟨⟨0, 0, 10, 10⟩, 1/2, 1, "t"⟩

/-- An object box left of `tC10` with horizontal gap 5 but vertical offset
`n`: near along the x axis no matter how far away it is vertically. -/
def oFar (n : ℕ) : Detection := ⟨⟨-12, (n : ℚ), -5, (n : ℚ) + 10⟩, 1/2, 2, "o"⟩

/-- C10: `check_nearness` tests each axis gap independently: the boxes
`oFar n` are disjoint from `tC10` and at squared center distance at least
`n^2`, yet `check_nearness` returns true for every `n`; and for every pair
of boxes overlapping in both axes it returns false. -/
theorem c10_nearness_axis_independent :
    (∀ n : ℕ,
      check_nearness [tC10] [oFar n] = true ∧
      interArea tC10.box (oFar n).box = 0 ∧
      ((n : ℚ)) ^ 2 ≤ sqDist (center tC10.box) (center (oFar n).box)) ∧
    (∀ t o : Detection, t.box.x1 < o.box.x2 → o.box.x1 < t.box.x2 →
      t.box.y1 < o.box.y2 → o.box.y1 < t.box.y2 →
      check_nearness [t] [o] = false) := by
  constructor
  · intro n
    refine ⟨?_, ?_, ?_⟩
    · simp [check_nearness, tC10, oFar]
      left; left; left
      norm_num
    · simp [interArea, tC10, oFar]
    · simp only [sqDist, center, tC10, oFar]
      nlinarith [sq_nonneg ((n : ℚ))]
  · intro t o hx1 hx2 hy1 hy2
    simp only [check_nearness, List.any_cons, List.any_nil, Bool.or_false,
      Bool.or_eq_false_iff, decide_eq_false_iff_not]
    refine ⟨⟨⟨?_, ?_⟩, ?_⟩, ?_⟩ <;> rintro ⟨h1, h2⟩ <;> linarith

/-- C10 witness: boxes `(0,0)-(10,10)` and `(1,1)-(5,5)` overlap in both
axes and `check_nearness` rejects them; and the far-away family fires at
`n = 100`. -/
theorem c10_nearness_witness :
    check_nearness [⟨⟨0, 0, 10, 10⟩, 1/2, 1, "t"⟩] [⟨⟨1, 1, 5, 5⟩, 1/2, 2, "o"⟩]
      = false ∧
    check_nearness [tC10] [oFar 100] = true :=
  ⟨c10_nearness_axis_independent.2 ⟨⟨0, 0, 10, 10⟩, 1/2, 1, "t"⟩
      ⟨⟨1, 1, 5, 5⟩, 1/2, 2, "o"⟩ (by with_unfolding_all decide)
      (by with_unfolding_all decide) (by with_unfolding_all decide)
      (by with_unfolding_all decide),
   (c10_nearness_axis_independent.1 100).1⟩

theorem interArea_nonneg (a b : Box) : 0 ≤ interArea a b :=
  mul_nonneg (le_max_left 0 _) (le_max_left 0 _)

theorem interArea_le_boxArea_left {a b : Box} (h : 0 < interArea a b) :
    interArea a b ≤ boxArea a := by
  unfold interArea at h ⊢
  unfold boxArea
  have h0x : (0:ℚ) ≤ max 0 (min a.x2 b.x2 - max a.x1 b.x1) := le_max_left 0 _
  have h0y : (0:ℚ) ≤ max 0 (min a.y2 b.y2 - max a.y1 b.y1) := le_max_left 0 _
  have hx : 0 < max 0 (min a.x2 b.x2 - max a.x1 b.x1) := by nlinarith
  have hy : 0 < max 0 (min a.y2 b.y2 - max a.y1 b.y1) := by nlinarith
  have hx' : 0 < min a.x2 b.x2 - max a.x1 b.x1 := by
    rcases lt_max_iff.mp hx with h' | h'
    · exact absurd h' (lt_irrefl 0)
    · exact h'
  have hy' : 0 < min a.y2 b.y2 - max a.y1 b.y1 := by
    rcases lt_max_iff.mp hy with h' | h'
    · exact absurd h' (lt_irrefl 0)
    · exact h'
  rw [max_eq_right hx'.le, max_eq_right hy'.le]
  have hwx : min a.x2 b.x2 - max a.x1 b.x1 ≤ a.x2 - a.x1 :=
    sub_le_sub (min_le_left _ _) (le_max_left _ _)
  have hwy : min a.y2 b.y2 - max a.y1 b.y1 ≤ a.y2 - a.y1 :=
    sub_le_sub (min_le_left _ _) (le_max_left _ _)
  exact mul_le_mul hwx hwy hy'.le (by linarith)

theorem interArea_le_boxArea_right {a b : Box} (h : 0 < interArea a b) :
    interArea a b ≤ boxArea b := by
  rw [interArea_comm] at h ⊢
  exact interArea_le_boxArea_left h

/-- C8: the IoU computation of `consolidate_detections` is total: for all
boxes, including degenerate ones, the IoU is a well-defined rational in
`[0, 1]`, and whenever the union area is not strictly positive it is defined
to be 0 (the guarded branch; no division is attempted). -/
theorem c8_iou_total_and_bounded (a b : Box) :
    0 ≤ iouQ a b ∧ iouQ a b ≤ 1 ∧ (unionArea a b ≤ 0 → iouQ a b = 0) := by
  refine ⟨?_, ?_, fun h => by unfold iouQ; rw [if_neg (not_lt.mpr h)]⟩
  · unfold iouQ
    split
    · exact div_nonneg (interArea_nonneg a b) (le_of_lt (by assumption))
    · exact le_refl 0
  · unfold iouQ
    split
    · rename_i hu
      rw [div_le_one hu]
      rcases (interArea_nonneg a b).lt_or_eq with hpos | h0
      · have h1 := interArea_le_boxArea_left hpos
        have h2 := interArea_le_boxArea_right hpos
        unfold unionArea at hu ⊢
        linarith
      · rw [← h0]
        exact hu.le
    · norm_num

/-- C8 witness: the degenerate zero-area box has union area 0 with itself
and the guard yields IoU 0. -/
theorem c8_iou_witness :
    unionArea ⟨0, 0, 0, 0⟩ ⟨0, 0, 0, 0⟩ ≤ 0 ∧
    iouQ ⟨0, 0, 0, 0⟩ ⟨0, 0, 0, 0⟩ = 0 :=
  ⟨by with_unfolding_all decide,
   (c8_iou_total_and_bounded ⟨0, 0, 0, 0⟩ ⟨0, 0, 0, 0⟩).2.2
     (by with_unfolding_all decide)⟩

/-! ## Containment and size lemmas for the consolidation loop -/

/-- `boxLE a b`: box `a` lies inside box `b` componentwise. -/
def boxLE (a b : Box) : Prop :=
  b.x1 ≤ a.x1 ∧ b.y1 ≤ a.y1 ∧ a.x2 ≤ b.x2 ∧ a.y2 ≤ b.y2

theorem boxLE_refl (a : Box) : boxLE a a :=
  ⟨le_refl _, le_refl _, le_refl _, le_refl _⟩

theorem boxLE_trans {a b c : Box} (h1 : boxLE a b) (h2 : boxLE b c) :
    boxLE a c :=
  ⟨le_trans h2.1 h1.1, le_trans h2.2.1 h1.2.1,
   le_trans h1.2.2.1 h2.2.2.1, le_trans h1.2.2.2 h2.2.2.2⟩

theorem boxLE_mergeBox_left (a b : Box) : boxLE a (mergeBox a b) :=
  ⟨min_le_left _ _, min_le_left _ _, le_max_left _ _, le_max_left _ _⟩

theorem boxLE_mergeBox_right (a b : Box) : boxLE b (mergeBox a b) :=
  ⟨min_le_right _ _, min_le_right _ _, le_max_right _ _, le_max_right _ _⟩

theorem boxLE_area {a b : Box} (h : boxLE a b) (hx : a.x1 < a.x2)
    (hy : a.y1 < a.y2) : boxArea a ≤ boxArea b := by
  obtain ⟨h1, h2, h3, h4⟩ := h
  unfold boxArea
  have hwa : 0 ≤ a.x2 - a.x1 := by linarith
  have hha : 0 ≤ a.y2 - a.y1 := by linarith
  exact mul_le_mul (by linarith) (by linarith) hha (by linarith)

theorem mergeScan_grows (thr : ℚ) :
    ∀ (l : List Detection) (acc : Box) (c : ℚ),
      boxLE acc (mergeScan thr acc c l).1 := by
  intro l
  induction l with
  | nil => intro acc c; exact boxLE_refl acc
  | cons e ds ih =>
    intro acc c
    rw [mergeScan]
    split
    · exact boxLE_trans (boxLE_mergeBox_left acc e.box) (ih _ _)
    · exact ih acc c

theorem mergeScan_mem_claimed (thr : ℚ) :
    ∀ (l : List Detection) (acc : Box) (c : ℚ) (d : Detection), d ∈ l →
      boxLE d.box (mergeScan thr acc c l).1 ∨
      d ∈ (mergeScan thr acc c l).2.2 := by
  intro l
  induction l with
  | nil => intro acc c d hd; cases hd
  | cons e ds ih =>
    intro acc c d hd
    rw [mergeScan]
    rcases List.mem_cons.mp hd with rfl | hds
    · split
      · exact Or.inl (boxLE_trans (boxLE_mergeBox_right acc d.box)
          (mergeScan_grows thr ds _ _))
      · exact Or.inr (List.mem_cons_self _ _)
    · split
      · exact ih _ _ d hds
      · rcases ih acc c d hds with h | h
        · exact Or.inl h
        · exact Or.inr (List.mem_cons_of_mem e h)

theorem mem_insertDesc {x d : Detection} :
    ∀ {l : List Detection}, x ∈ insertDesc d l ↔ x = d ∨ x ∈ l := by
  intro l
  induction l with
  | nil => simp [insertDesc]
  | cons e es ih =>
    rw [insertDesc]
    split
    · simp
    · simp only [List.mem_cons, ih]
      tauto

theorem mem_sortDesc {d : Detection} {l : List Detection} (h : d ∈ l) :
    d ∈ sortDesc l := by
  induction l with
  | nil => cases h
  | cons e es ih =>
    rcases List.mem_cons.mp h with rfl | hes
    · exact mem_insertDesc.mpr (Or.inl rfl)
    · exact mem_insertDesc.mpr (Or.inr (ih hes))

theorem sortDesc_length (l : List Detection) :
    (sortDesc l).length = l.length := by
  have hins : ∀ (d : Detection) (m : List Detection),
      (insertDesc d m).length = m.length + 1 := by
    intro d m
    induction m with
    | nil => rfl
    | cons e es ih =>
      rw [insertDesc]
      split
      · rfl
      · simp [ih]
  induction l with
  | nil => rfl
  | cons e es ih => simp [sortDesc, List.foldr_cons, hins] at *; omega

theorem consolidateSorted_length_aux (thr : ℚ) :
    ∀ (n : ℕ) (l : List Detection), l.length ≤ n →
      (consolidateSorted thr l).length ≤ l.length := by
  intro n
  induction n with
  | zero =>
    intro l hl
    rw [List.length_eq_zero.mp (Nat.le_zero.mp hl), consolidateSorted_nil]
  | succ n ih =>
    intro l hl
    match l with
    | [] => rw [consolidateSorted_nil]
    | d :: ds =>
      rw [consolidateSorted_cons]
      simp only [List.length_cons] at hl ⊢
      have h1 := mergeScan_rest_length thr d.box d.conf ds
      have h2 := ih (mergeScan thr d.box d.conf ds).2.2 (by omega)
      omega

theorem consolidateSorted_length (thr : ℚ) (l : List Detection) :
    (consolidateSorted thr l).length ≤ l.length :=
  consolidateSorted_length_aux thr l.length l (le_refl _)

theorem consolidateSorted_covers_aux (thr : ℚ) :
    ∀ (n : ℕ) (l : List Detection), l.length ≤ n →
      ∀ d ∈ l, ∃ o ∈ consolidateSorted thr l, boxLE d.box o.box := by
  intro n
  induction n with
  | zero =>
    intro l hl d hd
    rw [List.length_eq_zero.mp (Nat.le_zero.mp hl)] at hd
    cases hd
  | succ n ih =>
    intro l hl d hd
    match l with
    | [] => cases hd
    | e :: ds =>
      rw [consolidateSorted_cons]
      simp only [List.length_cons] at hl
      rcases List.mem_cons.mp hd with rfl | hds
      · exact ⟨_, List.mem_cons_self _ _, mergeScan_grows thr ds d.box d.conf⟩
      · rcases mergeScan_mem_claimed thr ds e.box e.conf d hds with h | h
        · exact ⟨_, List.mem_cons_self _ _, h⟩
        · have hlen : (mergeScan thr e.box e.conf ds).2.2.length ≤ n :=
            le_trans (mergeScan_rest_length thr e.box e.conf ds) (by omega)
          obtain ⟨o, ho, hbox⟩ := ih _ hlen d h
          exact ⟨o, List.mem_cons_of_mem _ ho, hbox⟩

/-- C7: consolidation never lengthens the list, and (for well-formed input
boxes) every input detection's box is contained in some output box — in
particular the box it was merged into — whose area is therefore at least the
input box's area. -/
theorem c7_output_smaller_and_covering (thr : ℚ) (dets : List Detection) :
    (consolidate dets thr).length ≤ dets.length ∧
    ∀ d ∈ dets, d.box.x1 < d.box.x2 → d.box.y1 < d.box.y2 →
      ∃ o ∈ consolidate dets thr,
        boxLE d.box o.box ∧ boxArea d.box ≤ boxArea o.box := by
  unfold consolidate consolidate_detections
  by_cases hne : dets = []
  · subst hne
    simp
  · rw [if_neg hne]
    constructor
    · calc (consolidateSorted thr (sortDesc dets)).length
          ≤ (sortDesc dets).length := consolidateSorted_length thr _
        _ = dets.length := sortDesc_length dets
    · intro d hd hx hy
      obtain ⟨o, ho, hbox⟩ :=
        consolidateSorted_covers_aux thr (sortDesc dets).length (sortDesc dets)
          (le_refl _) d (mem_sortDesc hd)
      exact ⟨o, ho, hbox, boxLE_area hbox hx hy⟩

/-- C7 witness: on the concrete C2-style list at threshold `1/2`, the output
has at most the input's length and the merged detection `(0,0)-(20,10)` of
the output contains the well-formed input box `(0,0)-(10,10)` with at least
its area. -/
theorem c7_witness :
    (consolidate [⟨⟨0, 0, 10, 10⟩, 9/10, 1, "a"⟩, ⟨⟨0, 0, 20, 10⟩, 7/10, 3, "b"⟩]
        (1/2)).length ≤ 2 ∧
    ((⟨⟨0, 0, 10, 10⟩, 9/10, 1, "a"⟩ : Detection).box.x1 <
        (⟨⟨0, 0, 10, 10⟩, 9/10, 1, "a"⟩ : Detection).box.x2) ∧
    ∃ o ∈ consolidate
        [⟨⟨0, 0, 10, 10⟩, 9/10, 1, "a"⟩, ⟨⟨0, 0, 20, 10⟩, 7/10, 3, "b"⟩] (1/2),
      boxLE (⟨⟨0, 0, 10, 10⟩, 9/10, 1, "a"⟩ : Detection).box o.box ∧
      boxArea (⟨⟨0, 0, 10, 10⟩, 9/10, 1, "a"⟩ : Detection).box ≤ boxArea o.box :=
  ⟨(c7_output_smaller_and_covering (1/2) _).1,
   by with_unfolding_all decide,
   (c7_output_smaller_and_covering (1/2) _).2 _ (by simp)
     (by with_unfolding_all decide) (by with_unfolding_all decide)⟩

/-! ## Sortedness of the consolidation output, and (non-)idempotence -/

theorem insertDesc_pairwise {d : Detection} {l : List Detection}
    (h : List.Pairwise (fun a b => b.conf ≤ a.conf) l) :
    List.Pairwise (fun a b => b.conf ≤ a.conf) (insertDesc d l) := by
  induction l with
  | nil => simp [insertDesc]
  | cons e es ih =>
    rw [insertDesc]
    rcases List.pairwise_cons.mp h with ⟨he, hes⟩
    split
    · rename_i hconf
      refine List.pairwise_cons.mpr ⟨?_, h⟩
      intro x hx
      rcases List.mem_cons.mp hx with rfl | hxes
      · exact hconf
      · exact le_trans (he x hxes) hconf
    · rename_i hconf
      refine List.pairwise_cons.mpr ⟨?_, ih hes⟩
      intro x hx
      rcases mem_insertDesc.mp hx with rfl | hxes
      · exact le_of_not_le hconf
      · exact he x hxes

theorem sortDesc_pairwise (l : List Detection) :
    List.Pairwise (fun a b => b.conf ≤ a.conf) (sortDesc l) := by
  induction l with
  | nil => simp [sortDesc]
  | cons e es ih => exact insertDesc_pairwise ih

theorem sortDesc_of_pairwise {l : List Detection}
    (h : List.Pairwise (fun a b => b.conf ≤ a.conf) l) : sortDesc l = l := by
  induction l with
  | nil => rfl
  | cons d ds ih =>
    rcases List.pairwise_cons.mp h with ⟨hd, hds⟩
    show insertDesc d (sortDesc ds) = d :: ds
    rw [ih hds]
    match ds, hd with
    | [], _ => rfl
    | e :: es, hd => exact if_pos (hd e (List.mem_cons_self _ _))

theorem mergeScan_conf_eq (thr : ℚ) :
    ∀ (l : List Detection) (acc : Box) (c : ℚ), (∀ e ∈ l, e.conf ≤ c) →
      (mergeScan thr acc c l).2.1 = c := by
  intro l
  induction l with
  | nil => intro acc c _; rfl
  | cons e ds ih =>
    intro acc c hc
    rw [mergeScan]
    split
    · rw [max_eq_left (hc e (List.mem_cons_self _ _))]
      exact ih _ c fun x hx => hc x (List.mem_cons_of_mem e hx)
    · exact ih acc c fun x hx => hc x (List.mem_cons_of_mem e hx)

theorem consolidateSorted_pairwise_aux (thr : ℚ) :
    ∀ (n : ℕ) (l : List Detection), l.length ≤ n →
      List.Pairwise (fun a b => b.conf ≤ a.conf) l →
      List.Pairwise (fun a b => b.conf ≤ a.conf) (consolidateSorted thr l) ∧
      ∀ o ∈ consolidateSorted thr l, ∃ e ∈ l, o.conf = e.conf := by
  intro n
  induction n with
  | zero =>
    intro l hl _
    rw [List.length_eq_zero.mp (Nat.le_zero.mp hl), consolidateSorted_nil]
    simp
  | succ n ih =>
    intro l hl hp
    match l with
    | [] => rw [consolidateSorted_nil]; simp
    | d :: ds =>
      rcases List.pairwise_cons.mp hp with ⟨hd, hds⟩
      simp only [List.length_cons] at hl
      have hsub := mergeScan_rest_sublist thr d.box d.conf ds
      have hlen : (mergeScan thr d.box d.conf ds).2.2.length ≤ n :=
        le_trans hsub.length_le (by omega)
      have hrestp := hds.sublist hsub
      obtain ⟨hout, hconfs⟩ := ih _ hlen hrestp
      have hheadconf : (mergeScan thr d.box d.conf ds).2.1 = d.conf :=
        mergeScan_conf_eq thr ds d.box d.conf hd
      rw [consolidateSorted_cons]
      constructor
      · refine List.pairwise_cons.mpr ⟨?_, hout⟩
        intro o ho
        obtain ⟨e, he, hoe⟩ := hconfs o ho
        show o.conf ≤ _
        simp only [hheadconf]
        rw [hoe]
        exact hd e (hsub.mem he)
      · intro o ho
        rcases List.mem_cons.mp ho with rfl | ho'
        · exact ⟨d, List.mem_cons_self _ _, hheadconf⟩
        · obtain ⟨e, he, hoe⟩ := hconfs o ho'
          exact ⟨e, List.mem_cons_of_mem d (hsub.mem he), hoe⟩

/-- The output of `consolidate_detections` is confidence-descending. -/
theorem consolidate_pairwise (l : List Detection) (thr : ℚ) :
    List.Pairwise (fun a b => b.conf ≤ a.conf) (consolidate l thr) := by
  unfold consolidate consolidate_detections
  by_cases hne : l = []
  · subst hne; simp
  · rw [if_neg hne]
    exact (consolidateSorted_pairwise_aux thr (sortDesc l).length (sortDesc l)
      (le_refl _) (sortDesc_pairwise l)).1

theorem mergeScan_of_no_merge (thr : ℚ) :
    ∀ (l : List Detection) (acc : Box) (c : ℚ),
      (∀ e ∈ l, iouQ acc e.box < thr) →
      mergeScan thr acc c l = (acc, c, l) := by
  intro l
  induction l with
  | nil => intro acc c _; rfl
  | cons e ds ih =>
    intro acc c hiou
    rw [mergeScan]
    rw [if_neg (not_le.mpr (hiou e (List.mem_cons_self _ _)))]
    rw [ih acc c fun x hx => hiou x (List.mem_cons_of_mem e hx)]

theorem consolidateSorted_of_pairwise_lt {thr : ℚ} :
    ∀ {l : List Detection},
      List.Pairwise (fun a b => iouQ a.box b.box < thr) l →
      consolidateSorted thr l = l := by
  intro l
  induction l with
  | nil => intro _; exact consolidateSorted_nil thr
  | cons d ds ih =>
    intro hp
    rcases List.pairwise_cons.mp hp with ⟨hd, hds⟩
    rw [consolidateSorted_cons, mergeScan_of_no_merge thr ds d.box d.conf hd]
    rw [ih hds]

theorem consolidate_eq_of_ne_nil {m : List Detection} (thr : ℚ) (h : m ≠ []) :
    consolidate m thr = consolidateSorted thr (sortDesc m) := by
  unfold consolidate consolidate_detections
  rw [if_neg h]

/-- C2 counterexample: consolidation is not idempotent. At threshold `1/2`
(inside `(0,1]`), the list of boxes `(0,0)-(10,10)` (conf 0.9),
`(8,0)-(22,10)` (conf 0.8), `(0,0)-(20,10)` (conf 0.7) consolidates to two
detections, but consolidating that output again merges them into one:
the first pass grows the seed box after the middle candidate was already
rejected, and the grown box overlaps it above threshold. -/
theorem c2_claim_false :
    consolidate
        (consolidate [⟨⟨0, 0, 10, 10⟩, 9/10, 1, "a"⟩, ⟨⟨8, 0, 22, 10⟩, 4/5, 2, "c"⟩,
          ⟨⟨0, 0, 20, 10⟩, 7/10, 3, "b"⟩] (1/2)) (1/2)
      ≠ consolidate [⟨⟨0, 0, 10, 10⟩, 9/10, 1, "a"⟩, ⟨⟨8, 0, 22, 10⟩, 4/5, 2, "c"⟩,
          ⟨⟨0, 0, 20, 10⟩, 7/10, 3, "b"⟩] (1/2) := by
  with_unfolding_all decide

/-- C2 (amended): consolidation is idempotent exactly when no further merge
is possible: if every ordered pair of the output has IoU strictly below the
threshold, applying `consolidate_detections` to its own output returns it
unchanged. (Without this side condition idempotence fails, see the
counterexample.) -/
theorem c2_idempotent_of_no_residual_overlap (l : List Detection) (thr : ℚ)
    (h : List.Pairwise (fun a b => iouQ a.box b.box < thr)
      (consolidate l thr)) :
    consolidate (consolidate l thr) thr = consolidate l thr := by
  have hsorted : List.Pairwise (fun a b => b.conf ≤ a.conf)
      (consolidate l thr) := consolidate_pairwise l thr
  by_cases hout : consolidate l thr = []
  · rw [hout]
    rfl
  · rw [consolidate_eq_of_ne_nil thr hout, sortDesc_of_pairwise hsorted,
      consolidateSorted_of_pairwise_lt h]

/-- C2 witness: two disjoint detections at threshold `1/2` consolidate to
themselves, their IoUs stay below threshold, and a second consolidation is
the identity. -/
theorem c2_idempotent_witness :
    List.Pairwise (fun a b => iouQ a.box b.box < 1/2)
      (consolidate [⟨⟨0, 0, 1, 1⟩, 9/10, 1, "a"⟩, ⟨⟨2, 2, 3, 3⟩, 4/5, 2, "b"⟩]
        (1/2)) ∧
    consolidate
        (consolidate [⟨⟨0, 0, 1, 1⟩, 9/10, 1, "a"⟩, ⟨⟨2, 2, 3, 3⟩, 4/5, 2, "b"⟩]
          (1/2)) (1/2)
      = consolidate [⟨⟨0, 0, 1, 1⟩, 9/10, 1, "a"⟩, ⟨⟨2, 2, 3, 3⟩, 4/5, 2, "b"⟩]
          (1/2) :=
  ⟨by with_unfolding_all decide,
   c2_idempotent_of_no_residual_overlap _ (1/2) (by with_unfolding_all decide)⟩

end SafetyVision
